import Mathlib

/-!
Verification of the duplicate-finder pipeline.

Shallow embedding of the repository's core logic:

* `Organized` — `src/organized/document/duplicate_detector.py`
  (`find_duplicates`, `remove_duplicates`, `analyze_duplicates`);
* `Classifier` — `src/organized/document/model.py`
  (`classify_file`, `_get_category_from_extension`) together with the
  extension helper from `src/utils/file_utils.py`;
* `Sim` — `src/duplicate_detector.py`
  (`compute_embeddings`, the pairwise scan in `find_duplicates`);
* `Log` — `src/utils/logger.py`
  (`log_file_metadata`, `generate_report`).

External effects are passed in explicitly: the filesystem is a function
from path to optional content, file hashes / modification times / sizes /
MIME types are oracles, and the success of a deletion is a boolean oracle.
Python `float` quantities that the claims compare exactly (confidences,
success rates, similarity thresholds) are modelled as rationals; the
values involved are small decimal literals, for which the comparisons at
stake are exact in both models.
-/

namespace Log

/-- A row of the `operations` table, as inserted by `Logger.log_operation`
(`src/utils/logger.py`).  Timestamps are modelled as naturals.  The
`source_path`/`destination_path`/`details` columns play no role in
`generate_report`'s aggregation and are omitted. -/
structure Operation where
  timestamp : Nat
  operation_type : String
  status : String
deriving DecidableEq

/-- The SQL `WHERE` window of `generate_report`: `timestamp >= start_date`
and `timestamp <= end_date`, each bound optional. -/
def inWindow (startDate endDate : Option Nat) (o : Operation) : Bool :=
  (match startDate with
   | some s => decide (s ≤ o.timestamp)
   | none => true) &&
  (match endDate with
   | some e => decide (o.timestamp ≤ e)
   | none => true)

/-- The `GROUP BY operation_type, status` with `COUNT(*)` of
`generate_report`: one row per distinct `(operation_type, status)` pair
with the number of its occurrences. -/
def groupRows : List (String × String) → List ((String × String) × Nat)
  | [] => []
  | p :: rest =>
    (p, 1 + rest.count p) :: groupRows (rest.filter (fun q => !(q == p)))
termination_by l => l.length
decreasing_by
  simp_wf
  exact Nat.lt_succ_of_le (List.length_filter_le _ _)

/-- The dictionary returned by `Logger.generate_report`.  The per-type
breakdown is not at stake in the claims; the totals are kept. -/
structure Report where
  total_operations : Nat
  success_rate : ℚ

/-- `Logger.generate_report` (`src/utils/logger.py`, lines 115-157):
filter the operations by the optional time window, group by
`(operation_type, status)`; `total_operations` is the sum of the group
counts, `total_success` the sum of the counts of the groups whose status
is `"success"` (in the source these sit in the `operations_by_type`
dictionary, one cell per `(type, status)` pair, so the sum over the
dictionary equals the sum over the grouped rows), and the success rate is
`(total_success / total_operations) * 100` guarded by
`total_operations > 0`, else the initial value `0`. -/
def generate_report (startDate endDate : Option Nat) (ops : List Operation) : Report :=
  let rows := groupRows ((ops.filter (inWindow startDate endDate)).map
    (fun o => (o.operation_type, o.status)))
  let total := (rows.map Prod.snd).sum
  let totalSuccess := ((rows.filter (fun r => r.1.2 == "success")).map Prod.snd).sum
  { total_operations := total
    success_rate :=
      if total > 0 then ((totalSuccess : ℚ) / (total : ℚ)) * 100 else 0 }

/-- A row of the `file_metadata` table (`_init_db`, `src/utils/logger.py`
lines 54-64): `file_path` is `UNIQUE`; timestamps are naturals. -/
structure MetaRow where
  file_path : String
  file_hash : String
  file_type : String
  file_size : Nat
  last_modified : Nat
  created_at : Nat
deriving DecidableEq

/-- `Logger.log_file_metadata` (`src/utils/logger.py`, lines 90-101):
`INSERT OR REPLACE INTO file_metadata`.  With `file_path UNIQUE`, SQLite
deletes any conflicting row and inserts the new row (with a fresh rowid,
i.e. at the end of the table). -/
def log_file_metadata (db : List MetaRow) (r : MetaRow) : List MetaRow :=
  db.filter (fun q => !(q.file_path == r.file_path)) ++ [r]

/-- Modelled from the spec: "reading the latest snapshot for that path"
(the repository has no query over `file_metadata`; only the write side,
`log_file_metadata`, is in the source).  The latest snapshot for a path
is the most recently inserted row carrying that path. -/
def getLatestSnapshot (db : List MetaRow) (p : String) : Option MetaRow :=
  (db.filter (fun q => q.file_path == p)).getLast?

end Log

namespace Classifier

/-- ASCII lower-casing of a character, as `str.lower()` acts on the ASCII
range (all table extensions are ASCII). -/
def lowerChar (c : Char) : Char := c.toLower

/-- ASCII lower-casing of a string (`str.lower()`). -/
def strLower (s : String) : String := String.mk (s.data.map lowerChar)

/-- The basename of a path: the part after the last `/`
(`os.path.splitext` splits only the last component). -/
def baseName (s : List Char) : List Char :=
  s.foldl (fun acc c => if c = '/' then [] else acc ++ [c]) []

/-- The extension part of `os.path.splitext` on a basename whose leading
dots have been stripped: everything from the last `.` on, if any. -/
def extAfterLastDot : List Char → Option (List Char)
  | [] => none
  | c :: cs =>
    match extAfterLastDot cs with
    | some e => some e
    | none => if c = '.' then some ('.' :: cs) else none

/-- `FileUtils.get_file_extension` (`src/utils/file_utils.py`, lines
78-80): `os.path.splitext(file_path)[1].lower()`.  `splitext` takes the
last `.` of the final path component, not counting the component's
leading dots. -/
def get_file_extension (p : String) : String :=
  let base := baseName p.data
  let rest := base.dropWhile (fun c => c = '.')
  match extAfterLastDot rest with
  | some e => strLower (String.mk e)
  | none => ""

/-- `FileClassifier._get_category_from_extension`
(`src/organized/document/model.py`, lines 124-153): the fixed
extension→category table, applied to the lower-cased extension. -/
def _get_category_from_extension (extension : String) : String :=
  let extension := strLower extension
  if extension ∈ [".jpg", ".jpeg", ".png", ".gif", ".bmp", ".tiff"] then "image"
  else if extension ∈ [".pdf", ".doc", ".docx", ".txt", ".rtf"] then "document"
  else if extension ∈ [".mp4", ".avi", ".mov", ".wmv", ".flv"] then "video"
  else if extension ∈ [".mp3", ".wav", ".ogg", ".flac"] then "audio"
  else if extension ∈ [".py", ".java", ".cpp", ".js", ".html", ".css"] then "code"
  else if extension ∈ [".zip", ".rar", ".7z", ".tar", ".gz"] then "archive"
  else "other"

/-- `str.startswith(pre)`, computed on the character lists. -/
def startsWithStr (s pre : String) : Bool := pre.data.isPrefixOf s.data

/-- The dictionary returned by `FileClassifier.classify_file`. -/
structure Classification where
  file_path : String
  file_type : String
  category : String
  confidence : ℚ
deriving DecidableEq

/-- `FileClassifier.classify_file` (`src/organized/document/model.py`,
lines 43-75).  `fileType` is the `magic` MIME oracle
(`FileUtils.get_file_type`); `readable p` says whether opening `p` for
text reading succeeds (`_classify_text_file`'s `try`); `imageModel` says
whether the pre-trained image model loaded; `imageOk p` says whether
`PIL` can open and the model can process `p` (`_classify_image_file`'s
`try`).  Branch order is the source's: the `text/` MIME branch first
(confidence 0.8 on success, `unknown`/0.0 on read failure), then the
`image/` MIME branch (0.9 with the model, 0.5 without it or on failure),
and only otherwise the extension table with confidence 1.0. -/
def classify_file (fileType : String → String) (readable : String → Bool)
    (imageModel : Bool) (imageOk : String → Bool) (p : String) : Classification :=
  let ft := fileType p
  if startsWithStr ft "text/" then
    if readable p then
      { file_path := p, file_type := ft, category := "document", confidence := 8/10 }
    else
      { file_path := p, file_type := ft, category := "unknown", confidence := 0 }
  else if startsWithStr ft "image/" then
    if imageModel && imageOk p then
      { file_path := p, file_type := ft, category := "image", confidence := 9/10 }
    else
      { file_path := p, file_type := ft, category := "image", confidence := 5/10 }
  else
    { file_path := p, file_type := ft
      category := _get_category_from_extension (get_file_extension p)
      confidence := 1 }

end Classifier

namespace Sim

/-- `DuplicateDetector.compute_embeddings` (`src/duplicate_detector.py`,
lines 29-40), with the filesystem `fs` (path → optional text content; a
`none` read raises), the name-based MIME oracle `mimeText`
(`is_text_file`, i.e. `mimetypes.guess_type(arg)[0].startswith('text')` —
it inspects its string argument, not the disk), and `hashOf` hashing file
content (`compute_hash` reads the file and digests its bytes).

The result is `Except Unit (Option String)`: `.error ()` models an
exception escaping the call, `.ok none` a returned `None`, `.ok (some h)`
a returned hash string.  No code path constructs an embedding vector: in
the text branch the source calls `self.compute_embeddings(text)` — itself,
with the file's *content* in the `file_path` position.  The `fuel`
argument bounds that self-recursion; exhaustion models Python's
`RecursionError`, an exception like any other.  In the text branch every
exception of the nested call (including a failed `open` inside
`compute_hash`) is caught by the enclosing `try` and turned into `None`;
in the binary branch there is no `try`, so a failed read escapes. -/
def compute_embeddings (hashOf : String → String) (fs : String → Option String)
    (mimeText : String → Bool) : Nat → String → Except Unit (Option String)
  | 0, _ => .error ()
  | fuel + 1, p =>
    if mimeText p then
      match fs p with
      | none => .ok none
      | some text =>
        match compute_embeddings hashOf fs mimeText fuel text with
        | .error () => .ok none
        | .ok v => .ok v
    else
      match fs p with
      | some content => .ok (some (hashOf content))
      | none => .error ()

/-- The duck-typed signature a path is mapped to before the pairwise scan
of `find_duplicates` (`src/duplicate_detector.py`, lines 74-88): either a
hash string (`isinstance(emb, str)`) or an embedding vector. -/
inductive Sig where
  | hash (h : String)
  | vec (v : List ℚ)
deriving DecidableEq

/-- One body of the inner loop of `find_duplicates`: whether the pair of
signatures is emitted.  Both hashes → emitted iff equal; both vectors →
emitted iff the cosine similarity (the external numeric capability `cos`)
reaches the threshold; mixed kinds → never compared. -/
def pairEmit (cos : List ℚ → List ℚ → ℚ) (threshold : ℚ) : Sig → Sig → Bool
  | .hash h1, .hash h2 => h1 == h2
  | .vec v1, .vec v2 => decide (threshold ≤ cos v1 v2)
  | _, _ => false

/-- The two-pointer nested scan of `find_duplicates`
(`src/duplicate_detector.py`, lines 72-88) over the path→signature
association built from the non-`None` signatures, in insertion order:
for every `i < j` emit `(path_i, path_j)` when `pairEmit` fires. -/
def find_duplicates_pairs (cos : List ℚ → List ℚ → ℚ) (threshold : ℚ) :
    List (String × Sig) → List (String × String)
  | [] => []
  | (p, s) :: rest =>
    (rest.filterMap (fun q => if pairEmit cos threshold s q.2 then some (p, q.1) else none))
      ++ find_duplicates_pairs cos threshold rest

/-- Concrete filesystem for exercising `compute_embeddings`: one readable
text file `notes.txt` containing `hello world`. -/
def fsEx : String → Option String :=
  fun p => if p = "notes.txt" then some "hello world" else none

/-- Concrete name-based MIME oracle: `notes.txt` is the only name that
`mimetypes` resolves to a `text/*` type. -/
def mimeTextEx : String → Bool := fun p => p == "notes.txt"

end Sim

namespace Organized

/-- `hash_map[file_hash].append(file_path)` on a `defaultdict(list)`
modelled as an association list in key-insertion order: append the path
to the existing group of the hash, or add a new singleton group at the
end. -/
def addToGroup (h : String) (p : String) :
    List (String × List String) → List (String × List String)
  | [] => [(h, [p])]
  | (k, ps) :: rest =>
    if k = h then (k, ps ++ [p]) :: rest else (k, ps) :: addToGroup h p rest

/-- The hash-grouping loop of `DuplicateDetector.find_duplicates`
(`src/organized/document/duplicate_detector.py`, lines 17-44).  `hashFn p`
is the content hash of `p`, or `none` when hashing raises (the `except`
arm logs the failure and skips the path).  A metadata-logging failure
after a successful hash leaves the path grouped, exactly as in the
source, where the `append` precedes the metadata call. -/
def hashStep (hashFn : String → Option String) (m : List (String × List String))
    (p : String) : List (String × List String) :=
  match hashFn p with
  | some h => addToGroup h p m
  | none => m

def hashMapOf (hashFn : String → Option String) (paths : List String) :
    List (String × List String) :=
  paths.foldl (hashStep hashFn) []

/-- `DuplicateDetector.find_duplicates`
(`src/organized/document/duplicate_detector.py`, lines 12-47): group by
hash, then `{k: v for k, v in hash_map.items() if len(v) > 1}`. -/
def find_duplicates (hashFn : String → Option String) (paths : List String) :
    List (String × List String) :=
  (hashMapOf hashFn paths).filter (fun kv => decide (1 < kv.2.length))

/-- Association-list lookup (dictionary access by hash key). -/
def lookupG : List (String × List String) → String → Option (List String)
  | [], _ => none
  | (k, v) :: rest, h => if k = h then some v else lookupG rest h

/-- Stable insertion into a list already sorted by the strict comparator
`lt`: the new element goes before the first entry not strictly below it,
hence before every entry comparing equal — the placement CPython's stable
`sorted` gives an element relative to the already-sorted remainder. -/
def insertSorted (lt : α → α → Bool) (x : α) : List α → List α
  | [] => [x]
  | y :: ys => if lt y x then y :: insertSorted lt x ys else x :: y :: ys

/-- Stable sort by the strict comparator `lt`; with
`lt a b = key a < key b` this is CPython's `sorted(key=key)` and with
`lt a b = key b < key a` its `sorted(key=key, reverse=True)` (both
stable: ties keep the input order). -/
def isortBy (lt : α → α → Bool) : List α → List α
  | [] => []
  | x :: xs => insertSorted lt x (isortBy lt xs)

/-- The first extreme element of a list under `lt`: the entry that ends
up at the head of the stable sort. -/
def firstBy (lt : α → α → Bool) : List α → Option α
  | [] => none
  | x :: xs =>
    match firstBy lt xs with
    | none => some x
    | some m => if lt m x then some m else some x

/-- The strategy dispatch of `DuplicateDetector.remove_duplicates`
(`src/organized/document/duplicate_detector.py`, lines 72-87):
`newest`/`largest` sort descending (`reverse=True`) by modification time
resp. size, `oldest`/`smallest` ascending; any other strategy raises
`ValueError` (`none` here). -/
def sortFilesByStrategy (mtime size : String → Nat) (strategy : String)
    (paths : List String) : Option (List String) :=
  if strategy = "newest" then
    some (isortBy (fun a b => decide (mtime b < mtime a)) paths)
  else if strategy = "oldest" then
    some (isortBy (fun a b => decide (mtime a < mtime b)) paths)
  else if strategy = "largest" then
    some (isortBy (fun a b => decide (size b < size a)) paths)
  else if strategy = "smallest" then
    some (isortBy (fun a b => decide (size a < size b)) paths)
  else none

/-- The retained member of a group: `keep_file = sorted_files[0]`
(`src/organized/document/duplicate_detector.py`, line 90). -/
def select_retained (mtime size : String → Nat) (strategy : String)
    (files : List String) : Option String :=
  (sortFilesByStrategy mtime size strategy files).bind List.head?

/-- `DuplicateDetector.remove_duplicates`
(`src/organized/document/duplicate_detector.py`, lines 58-109).
`removeOk p` is whether `os.remove(p)` succeeds; a failed removal is
logged and skipped, a successful one is appended to the returned list.
Groups of at most one member are skipped; the unknown-strategy
`ValueError` is the `Except.error`. -/
def remove_duplicates (mtime size : String → Nat) (removeOk : String → Bool) :
    List (String × List String) → String → Except String (List String)
  | [], _ => .ok []
  | (_, files) :: rest, strategy =>
    if files.length ≤ 1 then
      remove_duplicates mtime size removeOk rest strategy
    else
      match sortFilesByStrategy mtime size strategy files with
      | none => .error ("Unknown keep strategy: " ++ strategy)
      | some sortedFiles =>
        match remove_duplicates mtime size removeOk rest strategy with
        | .error e => .error e
        | .ok restRemoved =>
          .ok (((sortedFiles.drop 1).filter removeOk) ++ restRemoved)

/-- The `ValueError`-free strategies of `remove_duplicates`. -/
def validStrategy (s : String) : Prop :=
  s = "newest" ∨ s = "oldest" ∨ s = "largest" ∨ s = "smallest"

instance (s : String) : Decidable (validStrategy s) := by
  unfold validStrategy
  infer_instance

/-- `DuplicateDetector._get_duplicate_types`
(`src/organized/document/duplicate_detector.py`, lines 126-134) as the
counting function it builds: for each group, `len(files) - 1` is added
under the MIME type (`typeOf`) of the group's first member.  The source
indexes `files[0]`; groups are guarded non-empty by the caller, and the
`headD ""` default is never reached under that guard. -/
def _get_duplicate_types (typeOf : String → String)
    (duplicates : List (String × List String)) : String → Nat :=
  duplicates.foldl
    (fun acc kv t =>
      if typeOf (kv.2.headD "") = t then acc t + (kv.2.length - 1) else acc t)
    (fun _ => 0)

/-- The statistics dictionary of `analyze_duplicates`. -/
structure DupStats where
  total_duplicate_groups : Nat
  total_duplicate_files : Nat
  potential_space_saved : Nat
  duplicate_types : String → Nat

/-- `DuplicateDetector.analyze_duplicates`
(`src/organized/document/duplicate_detector.py`, lines 111-134).
`sizeOf` is `os.path.getsize`, `typeOf` the MIME oracle.  Indexing
`files[0]` on an empty group would raise `IndexError`; that is the `none`
case. -/
def analyze_duplicates (sizeOf : String → Nat) (typeOf : String → String)
    (duplicates : List (String × List String)) : Option DupStats :=
  if duplicates.all (fun kv => !kv.2.isEmpty) then
    some
      { total_duplicate_groups := duplicates.length
        total_duplicate_files := (duplicates.map (fun kv => kv.2.length - 1)).sum
        potential_space_saved :=
          (duplicates.map (fun kv => sizeOf (kv.2.headD "") * (kv.2.length - 1))).sum
        duplicate_types := _get_duplicate_types typeOf duplicates }
  else none

end Organized

section LogLemmas

open Log

theorem count_add_length_filter_ne (l : List (String × String)) (p : String × String) :
    l.count p + (l.filter (fun q => !(q == p))).length = l.length := by
  induction l with
  | nil => simp
  | cons q rest ih =>
    by_cases h : q = p
    · subst h
      simp [List.count_cons, List.filter_cons]
      omega
    · simp [List.count_cons, List.filter_cons, h, Ne.symm h]
      omega

theorem countP_split_of_pos (l : List (String × String)) (p : String × String)
    (P : String × String → Bool) (hP : P p = true) :
    l.countP P = l.count p + (l.filter (fun q => !(q == p))).countP P := by
  induction l with
  | nil => simp
  | cons q rest ih =>
    by_cases h : q = p
    · subst h
      simp [List.countP_cons, List.count_cons, List.filter_cons, hP, ih]
      omega
    · simp [List.countP_cons, List.count_cons, List.filter_cons, h, Ne.symm h, ih]
      omega

theorem countP_split_of_neg (l : List (String × String)) (p : String × String)
    (P : String × String → Bool) (hP : P p = false) :
    l.countP P = (l.filter (fun q => !(q == p))).countP P := by
  induction l with
  | nil => simp
  | cons q rest ih =>
    by_cases h : q = p
    · subst h
      simp [List.countP_cons, List.filter_cons, hP, ih]
    · simp [List.countP_cons, List.filter_cons, h, ih]

theorem sum_groupRows (l : List (String × String)) :
    ((groupRows l).map Prod.snd).sum = l.length := by
  induction l using groupRows.induct with
  | case1 => simp [groupRows]
  | case2 p rest ih =>
    rw [groupRows]
    simp only [List.map_cons, List.sum_cons, ih]
    have h := count_add_length_filter_ne rest p
    simp only [List.length_cons]
    omega

theorem sum_groupRows_filter (P : String × String → Bool) (l : List (String × String)) :
    (((groupRows l).filter (fun r => P r.1)).map Prod.snd).sum = l.countP P := by
  induction l using groupRows.induct with
  | case1 => simp [groupRows]
  | case2 p rest ih =>
    rw [groupRows]
    by_cases hP : P p
    · simp [List.filter_cons, hP, ih]
      have h := countP_split_of_pos rest p P hP
      omega
    · have hP' : P p = false := by simpa using hP
      simp [List.filter_cons, hP', ih]
      exact (countP_split_of_neg rest p P hP').symm

end LogLemmas

/-- **C8.** `log_file_metadata` upserts by file path: after writing a
snapshot, the latest snapshot for that path is exactly the last-written
row, there is exactly one row for that path (replace, not append), and
snapshots of other paths are untouched. -/
theorem C8_metadata_upsert (db : List Log.MetaRow) (r : Log.MetaRow) :
    Log.getLatestSnapshot (Log.log_file_metadata db r) r.file_path = some r ∧
    (Log.log_file_metadata db r).filter (fun q => q.file_path == r.file_path) = [r] ∧
    ∀ p, p ≠ r.file_path →
      Log.getLatestSnapshot (Log.log_file_metadata db r) p = Log.getLatestSnapshot db p := by
  refine ⟨?_, ?_, ?_⟩
  · unfold Log.getLatestSnapshot Log.log_file_metadata
    rw [List.filter_append]
    have h1 : (db.filter (fun q => !(q.file_path == r.file_path))).filter
        (fun q => q.file_path == r.file_path) = [] := by
      rw [List.filter_filter]
      apply List.filter_eq_nil_iff.mpr
      intro a _
      by_cases h : a.file_path = r.file_path <;> simp [h]
    rw [h1]
    simp
  · unfold Log.log_file_metadata
    rw [List.filter_append, List.filter_filter]
    have h1 : db.filter (fun a => (a.file_path == r.file_path) &&
        !(a.file_path == r.file_path)) = [] := by
      apply List.filter_eq_nil_iff.mpr
      intro a _
      by_cases h : a.file_path = r.file_path <;> simp [h]
    rw [h1]
    simp
  · intro p hp
    unfold Log.getLatestSnapshot Log.log_file_metadata
    rw [List.filter_append, List.filter_filter]
    have h1 : (List.filter (fun q => q.file_path == p) [r]) = [] := by
      simp [Ne.symm hp]
    have h2 : db.filter (fun a => (a.file_path == p) && !(a.file_path == r.file_path)) =
        db.filter (fun a => a.file_path == p) := by
      apply List.filter_congr
      intro a _
      by_cases h : a.file_path = p
      · simp [h, hp]
      · simp [h]
    rw [h1, h2]
    simp

/-- **C9 (amended).** `generate_report` never divides by zero: for every
set of logged operations (any optional time window), `total_operations`
is the number of operations in the window and `success_rate` is 0 when
that total is 0 and otherwise `(successes / total) * 100` — a percentage,
not the bare quotient the claim states. -/
theorem C9_success_rate (sd ed : Option Nat) (ops : List Log.Operation) :
    (Log.generate_report sd ed ops).total_operations =
      (ops.filter (Log.inWindow sd ed)).length ∧
    (Log.generate_report sd ed ops).success_rate =
      (if (ops.filter (Log.inWindow sd ed)).length = 0 then 0 else
        (((ops.filter (Log.inWindow sd ed)).countP
            (fun o => o.status == "success") : ℚ) /
          ((ops.filter (Log.inWindow sd ed)).length : ℚ)) * 100) := by
  have htot : ((Log.groupRows ((ops.filter (Log.inWindow sd ed)).map
      (fun o => (o.operation_type, o.status)))).map Prod.snd).sum
      = (ops.filter (Log.inWindow sd ed)).length := by
    rw [sum_groupRows, List.length_map]
  have hsucc : (((Log.groupRows ((ops.filter (Log.inWindow sd ed)).map
      (fun o => (o.operation_type, o.status)))).filter
        (fun r => r.1.2 == "success")).map Prod.snd).sum
      = (ops.filter (Log.inWindow sd ed)).countP (fun o => o.status == "success") := by
    have h1 := sum_groupRows_filter (fun pr => pr.2 == "success")
      ((ops.filter (Log.inWindow sd ed)).map (fun o => (o.operation_type, o.status)))
    rw [List.countP_map] at h1
    exact h1
  constructor
  · simpa [Log.generate_report] using htot
  · simp only [Log.generate_report]
    rw [htot, hsucc]
    rcases Nat.eq_zero_or_pos (ops.filter (Log.inWindow sd ed)).length with h | h
    · simp [h]
    · simp [h, Nat.pos_iff_ne_zero.mp h]

/-- **C9 (counterexample).** With a single logged successful operation the
code returns `success_rate = 100`, not `successes / total = 1`: the rate
is a percentage, refuting the claim's "success rate as successes divided
by total operations" reading at this input. -/
theorem C9_counterexample :
    (Log.generate_report none none
      [{ timestamp := 0, operation_type := "hash_calculation",
         status := "success" }]).total_operations = 1 ∧
    (Log.generate_report none none
      [{ timestamp := 0, operation_type := "hash_calculation",
         status := "success" }]).success_rate = 100 ∧
    ¬ (Log.generate_report none none
      [{ timestamp := 0, operation_type := "hash_calculation",
         status := "success" }]).success_rate = (1 : ℚ) / 1 := by
  refine ⟨?_, ?_, ?_⟩ <;> norm_num [Log.generate_report, Log.groupRows, Log.inWindow]

/-- **C9 (witness).** The empty-operations instance of `C9_success_rate`:
zero total, success rate 0, no division fault. -/
theorem C9_witness :
    (Log.generate_report none none []).total_operations = 0 ∧
    (Log.generate_report none none []).success_rate = 0 := by
  constructor
  · simpa using (C9_success_rate none none []).1
  · simpa using (C9_success_rate none none []).2

/-- **C3 (counterexample).** A file named `notes.txt` whose detected MIME
type is `text/plain` — its extension `.txt` is in the fixed table — is
classified by the content branch with confidence 0.8, not by the
extension table with confidence 1.0: in the source the MIME content
branches run first, so an extension match does not short-circuit content
inference. -/
theorem C3_counterexample :
    Classifier._get_category_from_extension
      (Classifier.get_file_extension "notes.txt") = "document" ∧
    (Classifier.classify_file (fun _ => "text/plain") (fun _ => true) true
      (fun _ => true) "notes.txt").confidence = 8/10 ∧
    ¬ ((Classifier.classify_file (fun _ => "text/plain") (fun _ => true) true
      (fun _ => true) "notes.txt").confidence = 1) := by
  have h : Classifier.startsWithStr "text/plain" "text/" = true := by decide
  refine ⟨by decide, ?_, ?_⟩ <;> norm_num [Classifier.classify_file, h]

/-- **C3 (amended).** The extension table is the fallback, not the first
step: for every file whose detected MIME type is neither `text/*` nor
`image/*`, `classify_file` returns the table's category for the file's
extension with confidence exactly 1.0, matching the extension
case-insensitively; files with a `text/*` or `image/*` MIME type are
classified by content inference instead, which short-circuits the
extension match.  In particular `readme.PDF` (detected as
`application/pdf`) classifies as `document` with confidence 1.0. -/
theorem C3_extension_fallback :
    (∀ (fileType : String → String) (readable : String → Bool)
      (imageModel : Bool) (imageOk : String → Bool) (p : String),
      Classifier.startsWithStr (fileType p) "text/" = false →
      Classifier.startsWithStr (fileType p) "image/" = false →
      Classifier.classify_file fileType readable imageModel imageOk p =
        { file_path := p, file_type := fileType p
          category :=
            Classifier._get_category_from_extension (Classifier.get_file_extension p)
          confidence := 1 }) ∧
    (∀ (fileType : String → String) (readable : String → Bool)
      (imageModel : Bool) (imageOk : String → Bool),
      fileType "readme.PDF" = "application/pdf" →
      Classifier.classify_file fileType readable imageModel imageOk "readme.PDF" =
        { file_path := "readme.PDF", file_type := "application/pdf"
          category := "document", confidence := 1 }) := by
  constructor
  · intro fileType readable imageModel imageOk p htext himg
    simp [Classifier.classify_file, htext, himg]
  · intro fileType readable imageModel imageOk h
    have htext : Classifier.startsWithStr "application/pdf" "text/" = false := by decide
    have himg : Classifier.startsWithStr "application/pdf" "image/" = false := by decide
    have hcat : Classifier._get_category_from_extension
        (Classifier.get_file_extension "readme.PDF") = "document" := by decide
    simp [Classifier.classify_file, h, htext, himg, hcat]

/-- **C3 (witness).** The `readme.PDF` scenario instance of
`C3_extension_fallback`. -/
theorem C3_witness :
    Classifier.classify_file (fun _ => "application/pdf") (fun _ => true) true
      (fun _ => true) "readme.PDF" =
      { file_path := "readme.PDF", file_type := "application/pdf"
        category := "document", confidence := 1 } :=
  C3_extension_fallback.2 (fun _ => "application/pdf") (fun _ => true) true
    (fun _ => true) rfl

/-- **C4 (divergence).** `compute_embeddings` never produces an embedding
vector: at the concrete readable text file `notes.txt` (name-based MIME
`text/plain`, content `hello world`) it returns `None`.  In the source
the text branch calls `self.compute_embeddings(text)` with the file's
content in the path position; the nested call fails to open the content
as a file and the raised exception is caught by the text branch's `try`,
which returns `None`.  The result is independent of the recursion budget
(any fuel ≥ 2, and fuel 0/1 only models an escaping `RecursionError`). -/
theorem C4_compute_embeddings_failing :
    Sim.mimeTextEx "notes.txt" = true ∧
    Sim.fsEx "notes.txt" = some "hello world" ∧
    Sim.compute_embeddings id Sim.fsEx Sim.mimeTextEx 2 "notes.txt" = Except.ok none ∧
    ∀ fuel, Sim.compute_embeddings id Sim.fsEx Sim.mimeTextEx (fuel + 2) "notes.txt" =
      Except.ok none := by
  have h1 : Sim.mimeTextEx "hello world" = false := by decide
  have h2 : Sim.fsEx "hello world" = none := by decide
  have h3 : Sim.mimeTextEx "notes.txt" = true := by decide
  have h4 : Sim.fsEx "notes.txt" = some "hello world" := by decide
  refine ⟨h3, h4, rfl, ?_⟩
  intro fuel
  simp [Sim.compute_embeddings, h1, h2, h3, h4]

/-- **C5.** The pairwise scan of `find_duplicates` emits `(a, b)` exactly
when `a` comes before `b` in the signature map and either both signatures
are hashes and the hashes are equal, or both are vectors and the cosine
similarity reaches the threshold; a mixed-kind pair is never emitted. -/
theorem C5_pairwise_similarity (cos : List ℚ → List ℚ → ℚ) (threshold : ℚ)
    (embs : List (String × Sim.Sig)) (a b : String) :
    (a, b) ∈ Sim.find_duplicates_pairs cos threshold embs ↔
    ∃ i j sa sb, i < j ∧ embs.get? i = some (a, sa) ∧ embs.get? j = some (b, sb) ∧
      ((∃ h, sa = Sim.Sig.hash h ∧ sb = Sim.Sig.hash h) ∨
       (∃ v w, sa = Sim.Sig.vec v ∧ sb = Sim.Sig.vec w ∧ threshold ≤ cos v w)) := by
  have hemit : ∀ sa sb, Sim.pairEmit cos threshold sa sb = true ↔
      ((∃ h, sa = Sim.Sig.hash h ∧ sb = Sim.Sig.hash h) ∨
       (∃ v w, sa = Sim.Sig.vec v ∧ sb = Sim.Sig.vec w ∧ threshold ≤ cos v w)) := by
    intro sa sb
    cases sa <;> cases sb <;> simp [Sim.pairEmit]
    all_goals tauto
  induction embs with
  | nil => simp [Sim.find_duplicates_pairs]
  | cons x rest ih =>
    obtain ⟨p, s⟩ := x
    rw [Sim.find_duplicates_pairs, List.mem_append]
    constructor
    · rintro (hmem | hmem)
      · rw [List.mem_filterMap] at hmem
        obtain ⟨q, hq, hfq⟩ := hmem
        by_cases he : Sim.pairEmit cos threshold s q.2 = true
        · rw [if_pos he] at hfq
          obtain ⟨q1, q2⟩ := q
          obtain ⟨ha, hb⟩ := Prod.mk.injEq .. ▸ (Option.some.injEq .. ▸ hfq)
          obtain ⟨n, hn⟩ := List.mem_iff_get?.mp hq
          subst ha
          subst hb
          exact ⟨0, n + 1, s, q2, Nat.succ_pos n, by simp, by simpa using hn,
            (hemit _ _).mp he⟩
        · rw [if_neg he] at hfq
          cases hfq
      · obtain ⟨i, j, sa, sb, hij, hi, hj, hcond⟩ := ih.mp hmem
        exact ⟨i + 1, j + 1, sa, sb, by omega, by simpa using hi, by simpa using hj, hcond⟩
    · rintro ⟨i, j, sa, sb, hij, hi, hj, hcond⟩
      cases i with
      | zero =>
        cases j with
        | zero => omega
        | succ j' =>
          left
          rw [List.get?_cons_zero, Option.some.injEq] at hi
          obtain ⟨ha, hs⟩ := Prod.mk.injEq .. ▸ hi.symm
          rw [List.get?_cons_succ] at hj
          rw [List.mem_filterMap]
          refine ⟨(b, sb), List.mem_iff_get?.mpr ⟨j', hj⟩, ?_⟩
          rw [if_pos ?_]
          · rw [ha]
          · exact (hemit _ _).mpr (hs ▸ hcond)
      | succ i' =>
        cases j with
        | zero => omega
        | succ j' =>
          right
          exact ih.mpr ⟨i', j', sa, sb, by omega, by simpa using hi, by simpa using hj, hcond⟩

/-- **C5 (witness).** A concrete instance of `C5_pairwise_similarity`:
two binary signatures with equal hashes are emitted as a pair. -/
theorem C5_witness :
    ("a", "b") ∈ Sim.find_duplicates_pairs (fun _ _ => 0) 1
      [("a", Sim.Sig.hash "x"), ("b", Sim.Sig.hash "x"), ("c", Sim.Sig.vec [1])] :=
  (C5_pairwise_similarity (fun _ _ => 0) 1
      [("a", Sim.Sig.hash "x"), ("b", Sim.Sig.hash "x"), ("c", Sim.Sig.vec [1])]
      "a" "b").mpr
    ⟨0, 1, Sim.Sig.hash "x", Sim.Sig.hash "x", by omega, rfl, rfl,
      Or.inl ⟨"x", rfl, rfl⟩⟩

theorem lookupG_addToGroup (h p : String) (m : List (String × List String)) (q : String) :
    Organized.lookupG (Organized.addToGroup h p m) q =
      if q = h then some (((Organized.lookupG m h).getD []) ++ [p])
      else Organized.lookupG m q := by
  induction m with
  | nil =>
    by_cases hq : q = h
    · subst hq; simp [Organized.addToGroup, Organized.lookupG]
    · simp [Organized.addToGroup, Organized.lookupG, hq, fun a => Ne.symm hq a]
  | cons kv rest ih =>
    obtain ⟨k, v⟩ := kv
    by_cases hk : k = h
    · subst hk
      by_cases hq : q = k
      · subst hq
        simp [Organized.addToGroup, Organized.lookupG]
      · simp [Organized.addToGroup, Organized.lookupG, hq, fun a => Ne.symm hq a]
    · by_cases hq : k = q
      · subst hq
        simp [Organized.addToGroup, Organized.lookupG, hk]
      · simp [Organized.addToGroup, Organized.lookupG, hk, hq, ih]

theorem keys_addToGroup (h p : String) (m : List (String × List String)) :
    (Organized.addToGroup h p m).map Prod.fst =
      if h ∈ m.map Prod.fst then m.map Prod.fst else m.map Prod.fst ++ [h] := by
  induction m with
  | nil => simp [Organized.addToGroup]
  | cons kv rest ih =>
    obtain ⟨k, v⟩ := kv
    by_cases hk : k = h
    · subst hk; simp [Organized.addToGroup]
    · simp only [Organized.addToGroup, if_neg hk, List.map_cons, List.mem_cons]
      rw [ih]
      by_cases hmem : h ∈ rest.map Prod.fst
      · simp [hmem]
      · simp [hmem, fun a => Ne.symm hk a]

theorem nodup_keys_addToGroup (h p : String) (m : List (String × List String))
    (hnd : (m.map Prod.fst).Nodup) :
    ((Organized.addToGroup h p m).map Prod.fst).Nodup := by
  rw [keys_addToGroup]
  by_cases hmem : h ∈ m.map Prod.fst
  · simpa [hmem] using hnd
  · rw [if_neg hmem]
    exact ((List.perm_append_singleton h (m.map Prod.fst)).nodup_iff).mpr
      (List.nodup_cons.mpr ⟨hmem, hnd⟩)

theorem nodup_keys_hashFold (hashFn : String → Option String) (ps : List String) :
    ∀ m : List (String × List String), (m.map Prod.fst).Nodup →
    ((ps.foldl (Organized.hashStep hashFn) m).map Prod.fst).Nodup := by
  induction ps with
  | nil => intro m hm; simpa using hm
  | cons p ps ih =>
    intro m hm
    simp only [List.foldl_cons]
    cases hfp : hashFn p with
    | none =>
      rw [show Organized.hashStep hashFn m p = m by simp [Organized.hashStep, hfp]]
      exact ih m hm
    | some h =>
      rw [show Organized.hashStep hashFn m p = Organized.addToGroup h p m by
        simp [Organized.hashStep, hfp]]
      exact ih _ (nodup_keys_addToGroup h p m hm)

theorem lookupG_hashFold (hashFn : String → Option String) (ps : List String) :
    ∀ (m : List (String × List String)) (h : String),
    Organized.lookupG (ps.foldl (Organized.hashStep hashFn) m) h =
      if Organized.lookupG m h = none ∧
          ps.filter (fun p => decide (hashFn p = some h)) = [] then none
      else some ((Organized.lookupG m h).getD [] ++
        ps.filter (fun p => decide (hashFn p = some h))) := by
  induction ps with
  | nil =>
    intro m h
    cases hl : Organized.lookupG m h <;> simp [hl]
  | cons p ps ih =>
    intro m h
    simp only [List.foldl_cons, List.filter_cons]
    cases hfp : hashFn p with
    | none =>
      rw [show Organized.hashStep hashFn m p = m by simp [Organized.hashStep, hfp]]
      simpa using ih m h
    | some h'' =>
      rw [show Organized.hashStep hashFn m p = Organized.addToGroup h'' p m by
        simp [Organized.hashStep, hfp]]
      by_cases hh : h'' = h
      · subst hh
        rw [ih (Organized.addToGroup h'' p m) h'',
          lookupG_addToGroup h'' p m h'', if_pos rfl]
        simp
      · rw [ih (Organized.addToGroup h'' p m) h, lookupG_addToGroup h'' p m h]
        simp [hh, Ne.symm hh]

theorem mem_of_lookupG (m : List (String × List String)) (h : String) (g : List String)
    (hl : Organized.lookupG m h = some g) : (h, g) ∈ m := by
  induction m with
  | nil => simp [Organized.lookupG] at hl
  | cons kv rest ih =>
    obtain ⟨k, v⟩ := kv
    by_cases hk : k = h
    · subst hk
      simp [Organized.lookupG] at hl
      simp [hl]
    · simp only [Organized.lookupG, if_neg hk] at hl
      exact List.mem_cons_of_mem _ (ih hl)

theorem lookupG_of_mem_nodup (m : List (String × List String))
    (hnd : (m.map Prod.fst).Nodup) (h : String) (g : List String)
    (hm : (h, g) ∈ m) : Organized.lookupG m h = some g := by
  induction m with
  | nil => simp at hm
  | cons kv rest ih =>
    obtain ⟨k, v⟩ := kv
    rw [List.map_cons, List.nodup_cons] at hnd
    rcases List.mem_cons.mp hm with heq | hrest
    · obtain ⟨hk, hv⟩ := Prod.mk.injEq .. ▸ heq.symm
      subst hk
      subst hv
      simp [Organized.lookupG]
    · have hk : ¬ k = h := by
        intro hkh
        subst hkh
        exact hnd.1 (List.mem_map.mpr ⟨(k, g), hrest, rfl⟩)
      simp only [Organized.lookupG, if_neg hk]
      exact ih hnd.2 hrest

/-- **C1.** `find_duplicates` maps a content hash to exactly the input
paths whose content carries that hash, in input order, and keeps only
groups with at least two members; in the three-file scenario with
contents `hello`, `hello`, `world` it returns exactly one group of size
two under `hello`'s hash, and the `world` file is in no group. -/
theorem C1_findExactDuplicates :
    (∀ (hashFn : String → Option String) (paths : List String) (h : String)
      (g : List String),
      (h, g) ∈ Organized.find_duplicates hashFn paths ↔
      (g = paths.filter (fun p => decide (hashFn p = some h)) ∧ 2 ≤ g.length)) ∧
    (∀ (fs : String → Option String) (hashOf : String → String) (p1 p2 p3 : String),
      fs p1 = some "hello" → fs p2 = some "hello" → fs p3 = some "world" →
      hashOf "hello" ≠ hashOf "world" →
      Organized.find_duplicates (fun p => (fs p).map hashOf) [p1, p2, p3] =
        [(hashOf "hello", [p1, p2])]) := by
  constructor
  · intro hashFn paths h g
    constructor
    · intro hmem
      rw [Organized.find_duplicates] at hmem
      obtain ⟨hmemMap, hlen⟩ := List.mem_filter.mp hmem
      have hnd : ((Organized.hashMapOf hashFn paths).map Prod.fst).Nodup := by
        have hstart := nodup_keys_hashFold hashFn paths [] (by simp)
        simpa [Organized.hashMapOf] using hstart
      have hl := lookupG_of_mem_nodup _ hnd h g hmemMap
      rw [Organized.hashMapOf, lookupG_hashFold hashFn paths [] h] at hl
      simp only [Organized.lookupG] at hl
      by_cases hf : paths.filter (fun p => decide (hashFn p = some h)) = []
      · rw [if_pos (by simp [hf])] at hl
        cases hl
      · rw [if_neg (by simp [hf])] at hl
        simp only [Option.getD_none, List.nil_append, Option.some.injEq] at hl
        refine ⟨hl.symm, ?_⟩
        simp only [decide_eq_true_eq] at hlen
        omega
    · rintro ⟨hg, hlen⟩
      have hf : paths.filter (fun p => decide (hashFn p = some h)) ≠ [] := by
        intro h0
        rw [hg, h0] at hlen
        simp at hlen
      have hl : Organized.lookupG (Organized.hashMapOf hashFn paths) h =
          some (paths.filter (fun p => decide (hashFn p = some h))) := by
        rw [Organized.hashMapOf, lookupG_hashFold hashFn paths [] h]
        rw [if_neg (by simp [Organized.lookupG, hf])]
        simp [Organized.lookupG]
      have hmem := mem_of_lookupG _ _ _ hl
      rw [← hg] at hmem
      rw [Organized.find_duplicates]
      refine List.mem_filter.mpr ⟨hmem, ?_⟩
      simp only [decide_eq_true_eq]
      omega
  · intro fs hashOf p1 p2 p3 h1 h2 h3 hne
    simp [Organized.find_duplicates, Organized.hashMapOf, Organized.hashStep,
      Organized.addToGroup, h1, h2, h3, hne]

/-- **C1 (witness).** The concrete `hello`/`hello`/`world` scenario with
the identity hash. -/
theorem C1_witness :
    Organized.find_duplicates
      (fun p => (Option.map id (if p = "a" then some "hello"
        else if p = "b" then some "hello"
        else if p = "c" then some "world" else (none : Option String))))
      ["a", "b", "c"] = [("hello", ["a", "b"])] :=
  C1_findExactDuplicates.2
    (fun q => if q = "a" then some "hello" else if q = "b" then some "hello"
      else if q = "c" then some "world" else none)
    id "a" "b" "c" (by decide) (by decide) (by decide) (by decide)

theorem insertSorted_perm (lt : α → α → Bool) (x : α) (l : List α) :
    (Organized.insertSorted lt x l).Perm (x :: l) := by
  induction l with
  | nil => simp [Organized.insertSorted]
  | cons y ys ih =>
    rw [Organized.insertSorted]
    by_cases h : lt y x
    · rw [if_pos h]
      exact (ih.cons y).trans (List.Perm.swap x y ys)
    · rw [if_neg h]

theorem isortBy_perm (lt : α → α → Bool) (l : List α) :
    (Organized.isortBy lt l).Perm l := by
  induction l with
  | nil => simp [Organized.isortBy]
  | cons x xs ih =>
    rw [Organized.isortBy]
    exact (insertSorted_perm lt x _).trans (ih.cons x)

theorem head_insertSorted (lt : α → α → Bool) (x : α) (l : List α) :
    (Organized.insertSorted lt x l).head? =
      some (match l.head? with
        | none => x
        | some y => if lt y x then y else x) := by
  cases l with
  | nil => simp [Organized.insertSorted]
  | cons y ys =>
    rw [Organized.insertSorted]
    by_cases h : lt y x
    · simp [h]
    · simp [h]

theorem head_isortBy (lt : α → α → Bool) (l : List α) :
    (Organized.isortBy lt l).head? = Organized.firstBy lt l := by
  induction l with
  | nil => simp [Organized.isortBy, Organized.firstBy]
  | cons x xs ih =>
    rw [Organized.isortBy, Organized.firstBy, head_insertSorted, ← ih]
    cases hh : (Organized.isortBy lt xs).head? with
    | none => simp
    | some m =>
      by_cases h : lt m x <;> simp [h]

theorem firstBy_eq_none (lt : α → α → Bool) (l : List α) :
    Organized.firstBy lt l = none ↔ l = [] := by
  cases l with
  | nil => simp [Organized.firstBy]
  | cons x xs =>
    rw [Organized.firstBy]
    cases h : Organized.firstBy lt xs with
    | none => simp
    | some m =>
      by_cases hlt : lt m x <;> simp [hlt]

theorem firstBy_desc_spec (k : α → Nat) (l : List α) (x : α)
    (hx : Organized.firstBy (fun a b => decide (k b < k a)) l = some x) :
    x ∈ l ∧ (∀ b ∈ l, k b ≤ k x) ∧
      l.find? (fun b => decide (k x ≤ k b)) = some x := by
  induction l generalizing x with
  | nil => simp [Organized.firstBy] at hx
  | cons y ys ih =>
    rw [Organized.firstBy] at hx
    cases hf : Organized.firstBy (fun a b => decide (k b < k a)) ys with
    | none =>
      rw [hf] at hx
      have hy : ys = [] := (firstBy_eq_none _ _).mp hf
      subst hy
      obtain rfl : y = x := by simpa using hx
      refine ⟨by simp, by simp, ?_⟩
      rw [List.find?_cons_of_pos _ (by simp)]
    | some m =>
      rw [hf] at hx
      simp only [] at hx
      obtain ⟨hm_mem, hm_ub, hm_find⟩ := ih m hf
      by_cases hk : k y < k m
      · rw [if_pos (by simpa using hk)] at hx
        obtain rfl : m = x := by simpa using hx
        refine ⟨List.mem_cons_of_mem _ hm_mem, ?_, ?_⟩
        · intro b hb
          rcases List.mem_cons.mp hb with rfl | hb'
          · exact Nat.le_of_lt hk
          · exact hm_ub b hb'
        · rw [List.find?_cons_of_neg _ (by simpa using Nat.not_le_of_lt hk)]
          exact hm_find
      · rw [if_neg (by simpa using hk)] at hx
        obtain rfl : y = x := by simpa using hx
        have hmy : k m ≤ k y := Nat.le_of_not_lt hk
        refine ⟨List.mem_cons_self _ _, ?_, ?_⟩
        · intro b hb
          rcases List.mem_cons.mp hb with rfl | hb'
          · exact Nat.le_refl _
          · exact Nat.le_trans (hm_ub b hb') hmy
        · rw [List.find?_cons_of_pos _ (by simp)]

theorem firstBy_asc_spec (k : α → Nat) (l : List α) (x : α)
    (hx : Organized.firstBy (fun a b => decide (k a < k b)) l = some x) :
    x ∈ l ∧ (∀ b ∈ l, k x ≤ k b) ∧
      l.find? (fun b => decide (k b ≤ k x)) = some x := by
  induction l generalizing x with
  | nil => simp [Organized.firstBy] at hx
  | cons y ys ih =>
    rw [Organized.firstBy] at hx
    cases hf : Organized.firstBy (fun a b => decide (k a < k b)) ys with
    | none =>
      rw [hf] at hx
      have hy : ys = [] := (firstBy_eq_none _ _).mp hf
      subst hy
      obtain rfl : y = x := by simpa using hx
      refine ⟨by simp, by simp, ?_⟩
      rw [List.find?_cons_of_pos _ (by simp)]
    | some m =>
      rw [hf] at hx
      simp only [] at hx
      obtain ⟨hm_mem, hm_lb, hm_find⟩ := ih m hf
      by_cases hk : k m < k y
      · rw [if_pos (by simpa using hk)] at hx
        obtain rfl : m = x := by simpa using hx
        refine ⟨List.mem_cons_of_mem _ hm_mem, ?_, ?_⟩
        · intro b hb
          rcases List.mem_cons.mp hb with rfl | hb'
          · exact Nat.le_of_lt hk
          · exact hm_lb b hb'
        · rw [List.find?_cons_of_neg _ (by simpa using Nat.not_le_of_lt hk)]
          exact hm_find
      · rw [if_neg (by simpa using hk)] at hx
        obtain rfl : y = x := by simpa using hx
        have hym : k y ≤ k m := Nat.le_of_not_lt hk
        refine ⟨List.mem_cons_self _ _, ?_, ?_⟩
        · intro b hb
          rcases List.mem_cons.mp hb with rfl | hb'
          · exact Nat.le_refl _
          · exact Nat.le_trans hym (hm_lb b hb')
        · rw [List.find?_cons_of_pos _ (by simp)]

theorem sortFiles_newest (mtime size : String → Nat) (files : List String) :
    Organized.sortFilesByStrategy mtime size "newest" files =
      some (Organized.isortBy (fun a b => decide (mtime b < mtime a)) files) := by
  rw [Organized.sortFilesByStrategy, if_pos rfl]

theorem sortFiles_oldest (mtime size : String → Nat) (files : List String) :
    Organized.sortFilesByStrategy mtime size "oldest" files =
      some (Organized.isortBy (fun a b => decide (mtime a < mtime b)) files) := by
  rw [Organized.sortFilesByStrategy, if_neg (by decide), if_pos rfl]

theorem sortFiles_largest (mtime size : String → Nat) (files : List String) :
    Organized.sortFilesByStrategy mtime size "largest" files =
      some (Organized.isortBy (fun a b => decide (size b < size a)) files) := by
  rw [Organized.sortFilesByStrategy, if_neg (by decide), if_neg (by decide), if_pos rfl]

theorem sortFiles_smallest (mtime size : String → Nat) (files : List String) :
    Organized.sortFilesByStrategy mtime size "smallest" files =
      some (Organized.isortBy (fun a b => decide (size a < size b)) files) := by
  rw [Organized.sortFilesByStrategy, if_neg (by decide), if_neg (by decide),
    if_neg (by decide), if_pos rfl]

theorem sortFiles_valid_isSome (mtime size : String → Nat) (strategy : String)
    (hs : Organized.validStrategy strategy) (files : List String) :
    ∃ sorted, Organized.sortFilesByStrategy mtime size strategy files = some sorted := by
  rcases hs with h | h | h | h <;> subst h
  · exact ⟨_, sortFiles_newest mtime size files⟩
  · exact ⟨_, sortFiles_oldest mtime size files⟩
  · exact ⟨_, sortFiles_largest mtime size files⟩
  · exact ⟨_, sortFiles_smallest mtime size files⟩

theorem sortFiles_perm (mtime size : String → Nat) (strategy : String)
    (files sorted : List String)
    (h : Organized.sortFilesByStrategy mtime size strategy files = some sorted) :
    sorted.Perm files := by
  rw [Organized.sortFilesByStrategy] at h
  split_ifs at h
  all_goals
    obtain rfl : _ = sorted := Option.some.injEq .. ▸ h
  all_goals exact isortBy_perm _ _

/-- **C2.** For each valid strategy the retained member of a group is the
strategy's extreme element, with ties broken by the first occurrence in
the group's order (`find?` returns the first element attaining the
extreme); and in the two-file `newest` scenario with `mtime A < mtime B`
the file `B` is retained while `A` is returned in the removed list. -/
theorem C2_selectRetained :
    (∀ (mtime size : String → Nat) (strategy : String) (files : List String),
      Organized.validStrategy strategy → files ≠ [] →
      ∃ x, Organized.select_retained mtime size strategy files = some x ∧ x ∈ files ∧
        ((strategy = "newest" →
            (∀ b ∈ files, mtime b ≤ mtime x) ∧
            files.find? (fun b => decide (mtime x ≤ mtime b)) = some x) ∧
         (strategy = "oldest" →
            (∀ b ∈ files, mtime x ≤ mtime b) ∧
            files.find? (fun b => decide (mtime b ≤ mtime x)) = some x) ∧
         (strategy = "largest" →
            (∀ b ∈ files, size b ≤ size x) ∧
            files.find? (fun b => decide (size x ≤ size b)) = some x) ∧
         (strategy = "smallest" →
            (∀ b ∈ files, size x ≤ size b) ∧
            files.find? (fun b => decide (size b ≤ size x)) = some x))) ∧
    (∀ (mtime size : String → Nat) (removeOk : String → Bool) (h A B : String),
      mtime A < mtime B → removeOk A = true →
      Organized.select_retained mtime size "newest" [A, B] = some B ∧
      Organized.remove_duplicates mtime size removeOk [(h, [A, B])] "newest" =
        Except.ok [A]) := by
  constructor
  · intro mtime size strategy files hs hne
    rcases hs with h | h | h | h <;> subst h
    · obtain ⟨sorted, hsort⟩ := sortFiles_valid_isSome mtime size "newest" (Or.inl rfl) files
      rw [sortFiles_newest] at hsort
      obtain rfl : _ = sorted := Option.some.injEq .. ▸ hsort
      have hhead : Organized.select_retained mtime size "newest" files =
          Organized.firstBy (fun a b => decide (mtime b < mtime a)) files := by
        rw [Organized.select_retained, sortFiles_newest, Option.some_bind, head_isortBy]
      cases hfb : Organized.firstBy (fun a b => decide (mtime b < mtime a)) files with
      | none => exact absurd ((firstBy_eq_none _ _).mp hfb) hne
      | some x =>
        obtain ⟨hmem, hub, hfind⟩ := firstBy_desc_spec mtime files x hfb
        exact ⟨x, by rw [hhead, hfb], hmem,
          fun _ => ⟨hub, hfind⟩,
          fun hc => absurd hc (by decide),
          fun hc => absurd hc (by decide),
          fun hc => absurd hc (by decide)⟩
    · cases hfb : Organized.firstBy (fun a b => decide (mtime a < mtime b)) files with
      | none => exact absurd ((firstBy_eq_none _ _).mp hfb) hne
      | some x =>
        obtain ⟨hmem, hlb, hfind⟩ := firstBy_asc_spec mtime files x hfb
        refine ⟨x, ?_, hmem,
          fun hc => absurd hc (by decide),
          fun _ => ⟨hlb, hfind⟩,
          fun hc => absurd hc (by decide),
          fun hc => absurd hc (by decide)⟩
        rw [Organized.select_retained, sortFiles_oldest, Option.some_bind, head_isortBy, hfb]
    · cases hfb : Organized.firstBy (fun a b => decide (size b < size a)) files with
      | none => exact absurd ((firstBy_eq_none _ _).mp hfb) hne
      | some x =>
        obtain ⟨hmem, hub, hfind⟩ := firstBy_desc_spec size files x hfb
        refine ⟨x, ?_, hmem,
          fun hc => absurd hc (by decide),
          fun hc => absurd hc (by decide),
          fun _ => ⟨hub, hfind⟩,
          fun hc => absurd hc (by decide)⟩
        rw [Organized.select_retained, sortFiles_largest, Option.some_bind, head_isortBy, hfb]
    · cases hfb : Organized.firstBy (fun a b => decide (size a < size b)) files with
      | none => exact absurd ((firstBy_eq_none _ _).mp hfb) hne
      | some x =>
        obtain ⟨hmem, hlb, hfind⟩ := firstBy_asc_spec size files x hfb
        refine ⟨x, ?_, hmem,
          fun hc => absurd hc (by decide),
          fun hc => absurd hc (by decide),
          fun hc => absurd hc (by decide),
          fun _ => ⟨hlb, hfind⟩⟩
        rw [Organized.select_retained, sortFiles_smallest, Option.some_bind, head_isortBy, hfb]
  · intro mtime size removeOk h A B hAB hrm
    have hsorted : Organized.isortBy (fun a b => decide (mtime b < mtime a)) [A, B] =
        [B, A] := by
      simp [Organized.isortBy, Organized.insertSorted, hAB]
    constructor
    · rw [Organized.select_retained, sortFiles_newest, Option.some_bind, hsorted]
      rfl
    · rw [Organized.remove_duplicates]
      rw [if_neg (by simp)]
      rw [show Organized.sortFilesByStrategy mtime size "newest" [A, B] = some [B, A] by
        rw [sortFiles_newest, hsorted]]
      rw [Organized.remove_duplicates]
      simp [hrm]

/-- **C2 (witness).** The `newest` scenario at concrete inputs: two
files with modification times 1 < 2; the later one is retained, the
earlier one removed. -/
theorem C2_witness :
    Organized.select_retained (fun p => if p = "b" then 2 else 1) (fun _ => 0)
      "newest" ["a", "b"] = some "b" ∧
    Organized.remove_duplicates (fun p => if p = "b" then 2 else 1) (fun _ => 0)
      (fun _ => true) [("h", ["a", "b"])] "newest" = Except.ok ["a"] :=
  C2_selectRetained.2 (fun p => if p = "b" then 2 else 1) (fun _ => 0)
    (fun _ => true) "h" "a" "b" (by decide) rfl

theorem remove_duplicates_ok_iff (mtime size : String → Nat) (removeOk : String → Bool)
    (strategy : String) (hs : Organized.validStrategy strategy)
    (dups : List (String × List String)) :
    ∃ removed, Organized.remove_duplicates mtime size removeOk dups strategy =
      Except.ok removed ∧
      ∀ p, p ∈ removed ↔ ∃ h files,
        (h, files) ∈ dups ∧ 2 ≤ files.length ∧ removeOk p = true ∧
        ∃ sorted, Organized.sortFilesByStrategy mtime size strategy files = some sorted ∧
          p ∈ sorted.drop 1 := by
  induction dups with
  | nil => exact ⟨[], rfl, by simp⟩
  | cons kv rest ih =>
    obtain ⟨k0, files0⟩ := kv
    obtain ⟨removedR, hokR, hiffR⟩ := ih
    by_cases hlen : files0.length ≤ 1
    · refine ⟨removedR, ?_, ?_⟩
      · rw [Organized.remove_duplicates, if_pos hlen, hokR]
      · intro p
        rw [hiffR p]
        constructor
        · rintro ⟨h, files, hmem, hrest⟩
          exact ⟨h, files, List.mem_cons_of_mem _ hmem, hrest⟩
        · rintro ⟨h, files, hmem, h2, hrest⟩
          rcases List.mem_cons.mp hmem with heq | hmem'
          · obtain ⟨-, hf⟩ := Prod.mk.injEq .. ▸ heq
            subst hf
            omega
          · exact ⟨h, files, hmem', h2, hrest⟩
    · obtain ⟨sorted0, hsort0⟩ := sortFiles_valid_isSome mtime size strategy hs files0
      refine ⟨(sorted0.drop 1).filter removeOk ++ removedR, ?_, ?_⟩
      · rw [Organized.remove_duplicates, if_neg hlen, hsort0, hokR]
      · intro p
        rw [List.mem_append, List.mem_filter, hiffR p]
        constructor
        · rintro (⟨hdrop, hok⟩ | ⟨h, files, hmem, hrest⟩)
          · exact ⟨k0, files0, List.mem_cons_self _ _, by omega, hok, sorted0,
              hsort0, hdrop⟩
          · exact ⟨h, files, List.mem_cons_of_mem _ hmem, hrest⟩
        · rintro ⟨h, files, hmem, h2, hok, sorted, hsort, hdrop⟩
          rcases List.mem_cons.mp hmem with heq | hmem'
          · left
            obtain ⟨hk, hf⟩ := Prod.mk.injEq .. ▸ heq
            subst hf
            rw [hsort0] at hsort
            obtain rfl : sorted0 = sorted := Option.some.injEq .. ▸ hsort
            exact ⟨hdrop, hok⟩
          · right
            exact ⟨h, files, hmem', h2, hok, sorted, hsort, hdrop⟩

/-- **C6.** `remove_duplicates` with a valid strategy never raises: it
returns exactly the successfully removed paths — a path is in the result
iff it is a non-retained member (position ≥ 1 of the strategy-sorted
order) of some group with at least two members whose deletion succeeded;
in particular a deletion failure is not in the result and does not
prevent any other member, of the same group or of later groups, from
being processed. -/
theorem C6_remove_duplicates_partial_failure (mtime size : String → Nat)
    (removeOk : String → Bool) (dups : List (String × List String))
    (strategy : String) (hs : Organized.validStrategy strategy) :
    ∃ removed, Organized.remove_duplicates mtime size removeOk dups strategy =
      Except.ok removed ∧
      (∀ p, p ∈ removed ↔ ∃ h files,
        (h, files) ∈ dups ∧ 2 ≤ files.length ∧ removeOk p = true ∧
        ∃ sorted, Organized.sortFilesByStrategy mtime size strategy files = some sorted ∧
          p ∈ sorted.drop 1) ∧
      (∀ p, removeOk p = false → p ∉ removed) := by
  obtain ⟨removed, hok, hiff⟩ :=
    remove_duplicates_ok_iff mtime size removeOk strategy hs dups
  refine ⟨removed, hok, hiff, ?_⟩
  intro p hbad hmem
  obtain ⟨_, _, _, _, hgood, _⟩ := (hiff p).mp hmem
  rw [hbad] at hgood
  cases hgood

/-- **C6 (witness).** The theorem instantiated at a group of three files
where only the deletion of `c` succeeds. -/
theorem C6_witness :
    ∃ removed,
      Organized.remove_duplicates (fun _ => 0) (fun _ => 0) (fun p => p == "c")
        [("h", ["a", "b", "c"])] "newest" = Except.ok removed ∧
      (∀ p, p ∈ removed ↔ ∃ h files,
        (h, files) ∈ [("h", ["a", "b", "c"])] ∧ 2 ≤ files.length ∧
        (p == "c") = true ∧
        ∃ sorted, Organized.sortFilesByStrategy (fun _ => 0) (fun _ => 0)
          "newest" files = some sorted ∧ p ∈ sorted.drop 1) ∧
      (∀ p, (p == "c") = false → p ∉ removed) :=
  C6_remove_duplicates_partial_failure (fun _ => 0) (fun _ => 0) (fun p => p == "c")
    [("h", ["a", "b", "c"])] "newest" (Or.inl rfl)

theorem nodup_flatten_mem_nodup (L : List (List String)) (hnd : L.flatten.Nodup)
    (l : List String) (hl : l ∈ L) : l.Nodup := by
  induction L with
  | nil => cases hl
  | cons l0 L' ih =>
    rw [List.flatten_cons, List.nodup_append] at hnd
    rcases List.mem_cons.mp hl with rfl | hl'
    · exact hnd.1
    · exact ih hnd.2.1 hl'

theorem nodup_flatten_eq (L : List (List String)) (hnd : L.flatten.Nodup)
    (l1 l2 : List String) (h1 : l1 ∈ L) (h2 : l2 ∈ L) (p : String)
    (hp1 : p ∈ l1) (hp2 : p ∈ l2) : l1 = l2 := by
  induction L with
  | nil => cases h1
  | cons l0 L' ih =>
    rw [List.flatten_cons, List.nodup_append] at hnd
    rcases List.mem_cons.mp h1 with rfl | h1'
    · rcases List.mem_cons.mp h2 with rfl | h2'
      · rfl
      · exact absurd (hnd.2.2 hp1 (List.mem_flatten.mpr ⟨l2, h2', hp2⟩)) (by simp)
    · rcases List.mem_cons.mp h2 with rfl | h2'
      · exact absurd (hnd.2.2 hp2 (List.mem_flatten.mpr ⟨l1, h1', hp1⟩)) (by simp)
      · exact ih hnd.2.1 h1' h2'

theorem mem_of_head?_eq_some (l : List String) (a : String) (h : l.head? = some a) :
    a ∈ l := by
  cases l with
  | nil => cases h
  | cons x t =>
    obtain rfl : x = a := by simpa using h
    exact List.mem_cons_self _ _

/-- **C10.** With a valid strategy and pairwise-distinct paths across the
duplicates mapping (the shape `find_duplicates` produces),
`remove_duplicates` never deletes every copy: the retained member of each
processed group is not in the returned removed list, and no member of a
group with fewer than two members is removed. -/
theorem C10_retained_not_removed (mtime size : String → Nat)
    (removeOk : String → Bool) (dups : List (String × List String))
    (strategy : String) (hs : Organized.validStrategy strategy)
    (hnd : ((dups.map Prod.snd).flatten).Nodup) :
    ∃ removed, Organized.remove_duplicates mtime size removeOk dups strategy =
      Except.ok removed ∧
      (∀ h files x, (h, files) ∈ dups →
        Organized.select_retained mtime size strategy files = some x →
        x ∉ removed) ∧
      (∀ h files, (h, files) ∈ dups → files.length ≤ 1 →
        ∀ p ∈ files, p ∉ removed) := by
  obtain ⟨removed, hok, hiff⟩ :=
    remove_duplicates_ok_iff mtime size removeOk strategy hs dups
  refine ⟨removed, hok, ?_, ?_⟩
  · intro h files x hmem hsel hxrem
    obtain ⟨h', files', hmem', h2', hok', sorted', hsort', hdrop'⟩ := (hiff x).mp hxrem
    rw [Organized.select_retained] at hsel
    obtain ⟨sorted, hsort, hhead⟩ := Option.bind_eq_some.mp hsel
    have hperm := sortFiles_perm mtime size strategy files sorted hsort
    have hxfiles : x ∈ files := hperm.mem_iff.mp (mem_of_head?_eq_some _ _ hhead)
    have hperm' := sortFiles_perm mtime size strategy files' sorted' hsort'
    have hxfiles' : x ∈ files' :=
      hperm'.mem_iff.mp (List.mem_of_mem_drop hdrop')
    have heq : files = files' :=
      nodup_flatten_eq _ hnd files files'
        (List.mem_map.mpr ⟨(h, files), hmem, rfl⟩)
        (List.mem_map.mpr ⟨(h', files'), hmem', rfl⟩) x hxfiles hxfiles'
    subst heq
    rw [hsort] at hsort'
    obtain rfl : sorted = sorted' := Option.some.injEq .. ▸ hsort'
    have hndf : files.Nodup :=
      nodup_flatten_mem_nodup _ hnd files (List.mem_map.mpr ⟨(h, files), hmem, rfl⟩)
    have hnds : sorted.Nodup := (hperm.nodup_iff).mpr hndf
    cases sorted with
    | nil => cases hhead
    | cons a t =>
      obtain rfl : a = x := by simpa using hhead
      rw [List.drop_one, List.tail_cons] at hdrop'
      exact (List.nodup_cons.mp hnds).1 hdrop'
  · intro h files hmem hlen p hp hprem
    obtain ⟨h', files', hmem', h2', hok', sorted', hsort', hdrop'⟩ := (hiff p).mp hprem
    have hperm' := sortFiles_perm mtime size strategy files' sorted' hsort'
    have hpfiles' : p ∈ files' :=
      hperm'.mem_iff.mp (List.mem_of_mem_drop hdrop')
    have heq : files = files' :=
      nodup_flatten_eq _ hnd files files'
        (List.mem_map.mpr ⟨(h, files), hmem, rfl⟩)
        (List.mem_map.mpr ⟨(h', files'), hmem', rfl⟩) p hp hpfiles'
    subst heq
    omega

/-- **C10 (witness).** The theorem instantiated at one two-member group
and one singleton group with distinct paths: the retained newest file is
not removed, the singleton is untouched. -/
theorem C10_witness :
    ∃ removed,
      Organized.remove_duplicates (fun p => if p = "b" then 2 else 1) (fun _ => 0)
        (fun _ => true) [("h1", ["a", "b"]), ("h2", ["c"])] "newest" =
        Except.ok removed ∧
      (∀ h files x, (h, files) ∈ [("h1", ["a", "b"]), ("h2", ["c"])] →
        Organized.select_retained (fun p => if p = "b" then 2 else 1) (fun _ => 0)
          "newest" files = some x → x ∉ removed) ∧
      (∀ h files, (h, files) ∈ [("h1", ["a", "b"]), ("h2", ["c"])] →
        files.length ≤ 1 → ∀ p ∈ files, p ∉ removed) :=
  C10_retained_not_removed (fun p => if p = "b" then 2 else 1) (fun _ => 0)
    (fun _ => true) [("h1", ["a", "b"]), ("h2", ["c"])] "newest" (Or.inl rfl)
    (by decide)

theorem dupTypes_fold (typeOf : String → String) (dups : List (String × List String)) :
    ∀ (acc : String → Nat) (t : String),
    (dups.foldl
      (fun acc kv t' =>
        if typeOf (kv.2.headD "") = t' then acc t' + (kv.2.length - 1) else acc t')
      acc) t =
      acc t + ((dups.filter (fun kv => decide (typeOf (kv.2.headD "") = t))).map
        (fun kv => kv.2.length - 1)).sum := by
  induction dups with
  | nil => simp
  | cons kv rest ih =>
    intro acc t
    simp only [List.foldl_cons, List.filter_cons]
    rw [ih]
    by_cases hc : typeOf (kv.2.headD "") = t
    · rw [if_pos hc, if_pos (decide_eq_true hc), List.map_cons, List.sum_cons]
      omega
    · rw [if_neg hc, if_neg (by simpa using hc)]

/-- **C7.** For a duplicates mapping of non-empty groups,
`analyze_duplicates` returns the group count, the duplicate-file count
`Σ (|group| − 1)`, the reclaimable space `Σ (|group| − 1) × size of the
group's first member` (non-negative), and the per-type breakdown that
adds `|group| − 1` under the MIME type of each group's first member. -/
theorem C7_analyze_duplicates (sizeOf : String → Nat) (typeOf : String → String)
    (dups : List (String × List String)) (hne : ∀ kv ∈ dups, kv.2 ≠ []) :
    ∃ stats, Organized.analyze_duplicates sizeOf typeOf dups = some stats ∧
      stats.total_duplicate_groups = dups.length ∧
      stats.total_duplicate_files = (dups.map (fun kv => kv.2.length - 1)).sum ∧
      stats.potential_space_saved =
        (dups.map (fun kv => sizeOf (kv.2.headD "") * (kv.2.length - 1))).sum ∧
      0 ≤ stats.potential_space_saved ∧
      ∀ t, stats.duplicate_types t =
        ((dups.filter (fun kv => decide (typeOf (kv.2.headD "") = t))).map
          (fun kv => kv.2.length - 1)).sum := by
  have hall : dups.all (fun kv => !kv.2.isEmpty) = true := by
    rw [List.all_eq_true]
    intro kv hkv
    simpa using hne kv hkv
  refine ⟨_, by rw [Organized.analyze_duplicates, if_pos hall], rfl, rfl, rfl,
    Nat.zero_le _, ?_⟩
  intro t
  show Organized._get_duplicate_types typeOf dups t = _
  rw [Organized._get_duplicate_types, dupTypes_fold]
  exact Nat.zero_add _

/-- **C7 (witness).** The theorem at two concrete groups of sizes 3
and 2. -/
theorem C7_witness :
    ∃ stats, Organized.analyze_duplicates (fun _ => 5) (fun _ => "text/plain")
        [("h", ["a", "b", "c"]), ("g", ["d", "e"])] = some stats ∧
      stats.total_duplicate_groups = [("h", ["a", "b", "c"]), ("g", ["d", "e"])].length ∧
      stats.total_duplicate_files =
        ([("h", ["a", "b", "c"]), ("g", ["d", "e"])].map
          (fun kv => kv.2.length - 1)).sum ∧
      stats.potential_space_saved =
        ([("h", ["a", "b", "c"]), ("g", ["d", "e"])].map
          (fun kv => (fun _ => 5 : String → Nat) (kv.2.headD "") * (kv.2.length - 1))).sum ∧
      0 ≤ stats.potential_space_saved ∧
      ∀ t, stats.duplicate_types t =
        (([("h", ["a", "b", "c"]), ("g", ["d", "e"])].filter
          (fun kv => decide ((fun _ => "text/plain" : String → String)
            (kv.2.headD "") = t))).map (fun kv => kv.2.length - 1)).sum :=
  C7_analyze_duplicates (fun _ => 5) (fun _ => "text/plain")
    [("h", ["a", "b", "c"]), ("g", ["d", "e"])] (by decide)

/-- **C8 (witness).** Writing one snapshot into an empty table: reading
it back returns the written row; other paths are untouched. -/
theorem C8_witness :
    Log.getLatestSnapshot
      (Log.log_file_metadata [] ⟨"a", "h", "t", 1, 2, 3⟩) "a" =
      some (⟨"a", "h", "t", 1, 2, 3⟩ : Log.MetaRow) ∧
    Log.getLatestSnapshot
      (Log.log_file_metadata [] ⟨"a", "h", "t", 1, 2, 3⟩) "b" =
      Log.getLatestSnapshot [] "b" :=
  ⟨(C8_metadata_upsert [] ⟨"a", "h", "t", 1, 2, 3⟩).1,
   (C8_metadata_upsert [] ⟨"a", "h", "t", 1, 2, 3⟩).2.2 "b" (by decide)⟩
